import Mathlib

/-!
Shallow embedding of the detection-and-containment pipeline of the
virus-scanning tool: the signature store and pattern matchers
(`src/scanner/database.rs`), the scan orchestrator
(`src/scanner/engine.rs`), and the quarantine subsystem
(`src/core/security.rs`).

Strings are embedded as `List Char` (`Str`), byte buffers as `List Nat`.
Machine hashes (`DefaultHasher`, a `u64`) are kept abstract as a function
parameter `hashF : List Nat → Nat`; only the hex formatting applied to the
hash value is concrete, mirroring `format!("{:x}", hasher.finish())`.
Fallible operations return `Option`/`Except`; a Rust panic is modelled as
`none`.
-/

namespace VScan

abbrev Str := List Char

/-- Association-list lookup: first entry with the given key, mirroring
`HashMap::get`. -/
def aFind {α : Type} : List (Str × α) → Str → Option α
  | [], _ => none
  | e :: rest, key => if e.1 = key then some e.2 else aFind rest key

/-- Association-list insert with replace-in-place semantics, mirroring
`HashMap::insert` (the key's binding is replaced if present, otherwise a
new binding is added). -/
def aInsert {α : Type} : List (Str × α) → Str → α → List (Str × α)
  | [], key, v => [(key, v)]
  | e :: rest, key, v =>
      if e.1 = key then (key, v) :: rest else e :: aInsert rest key v

/-- Number of bindings carrying a given key. -/
def keyCount {α : Type} (m : List (Str × α)) (key : Str) : Nat :=
  (m.filter (fun e => e.1 = key)).length

/-- All keys of the association list are distinct (the `HashMap`
representation invariant). -/
def nodupKeys {α : Type} (m : List (Str × α)) : Prop :=
  (m.map Prod.fst).Nodup

/-- `leadsList pre l` is true iff `pre` occurs at the very start of `l`;
mirrors `slice::starts_with`. -/
def leadsList {α : Type} [DecidableEq α] : List α → List α → Bool
  | [], _ => true
  | _ :: _, [] => false
  | a :: as, b :: bs => if a = b then leadsList as bs else false

/-! ## Pattern matching (`SignatureDatabase::match_pattern` and
`match_extended_pattern`, src/scanner/database.rs:246-285) -/

/-- `PatternType` from src/scanner/database.rs. The spec calls
`byteSequence` "ExactBytes" and `extendedByteSequence` "WildcardBytes". -/
inductive PatternType where
  | byteSequence
  | extendedByteSequence
  | logicalExpression
  | regex
  | peHeader
  | hash
deriving DecidableEq, Repr

/-- All contiguous windows of length `m` of a list, for `m ≥ 1`; mirrors
`slice::windows(m)` (the `m = 0` case never reaches this function, see
`windowsOf`): while at least `m` elements remain, emit the next window
and advance by one. -/
def windowsPos (m : Nat) : List Nat → List (List Nat)
  | [] => []
  | x :: xs => if xs.length + 1 < m then [] else (x :: xs).take m :: windowsPos m xs

/-- `slice::windows(m)`: panics (`none`) when `m = 0`, otherwise the list
of all length-`m` contiguous windows. -/
def windowsOf (l : List Nat) (m : Nat) : Option (List (List Nat)) :=
  if m = 0 then none else some (windowsPos m l)

/-- Leading run of literal (non-`*`, non-`?`) pattern bytes; mirrors the
inner `k`-counting loop of `match_extended_pattern`. `*` is byte 42 and
`?` is byte 63. -/
def litRun : List Nat → Nat
  | [] => 0
  | c :: p => if c = 42 ∨ c = 63 then 0 else litRun p + 1

/-- `SignatureDatabase::match_extended_pattern`
(src/scanner/database.rs:260-285). The cursor pair `(i, j)` of the Rust
loop is embedded as the pair of remaining suffixes `(d, p)`: while both
are nonempty, a `*` pattern byte returns `true` immediately, a `?` byte
consumes one data byte, and a literal run must occur at the start of the
remaining data. On loop exit the match succeeds iff the pattern was fully
consumed. Note the matcher is anchored: literal runs are compared at the
current position only, there is no sliding over the data. -/
def matchExtendedPattern (d p : List Nat) : Bool :=
  match d, p with
  | _, [] => true
  | [], _ :: _ => false
  | x :: d', c :: p' =>
    if c = 42 then true
    else if c = 63 then matchExtendedPattern d' p'
    else
      let k := litRun (c :: p')
      if leadsList ((c :: p').take k) (x :: d') then
        matchExtendedPattern ((x :: d').drop k) ((c :: p').drop k)
      else false
termination_by d.length
decreasing_by
  · simp
  · have hk : litRun (c :: p') = litRun p' + 1 := by
      simp [litRun, *]
    simp only [List.length_drop, List.length_cons, hk]
    omega

/-- `SignatureDatabase::match_pattern` (src/scanner/database.rs:246-258).
`none` models the panic of `data.windows(0)` raised when the pattern is
empty in the `ByteSequence` arm. -/
def matchPattern (data pattern : List Nat) (pt : PatternType) : Option Bool :=
  match pt with
  | .byteSequence =>
      (windowsOf data pattern.length).map (fun ws => ws.any (fun w => w = pattern))
  | .extendedByteSequence => some (matchExtendedPattern data pattern)
  | _ => some false

/-! ## Hash formatting (`SignatureDatabase::calculate_hash`,
src/scanner/database.rs:287-294)

The `DefaultHasher` value itself is kept abstract (`hashF` parameter); the
formatting `format!("{:x}", hasher.finish())` is embedded concretely. -/

/-- One lowercase hex digit, as produced by `{:x}` formatting. -/
def hexDigitChar (n : Nat) : Char :=
  if n < 10 then Char.ofNat (48 + n) else Char.ofNat (87 + n)

/-- Lowercase hex representation of a natural number, most significant
digit first, no leading zeros (`format!("{:x}", n)`). -/
def hexDigits (n : Nat) : Str :=
  if n < 16 then [hexDigitChar n]
  else hexDigits (n / 16) ++ [hexDigitChar (n % 16)]
decreasing_by exact Nat.div_lt_self (by omega) (by omega)

/-- `calculate_hash`: format the (abstract) 64-bit hash of the data in
lowercase hex. -/
def calculateHash (hashF : List Nat → Nat) (data : List Nat) : Str :=
  hexDigits (hashF data)

/-! ## Signature store (`SignatureDatabase`, src/scanner/database.rs) -/

/-- `Signature` from src/scanner/database.rs:12-22. -/
structure Signature where
  id : Str
  name : Str
  threat_type : Str
  risk_level : Str
  pattern : List Nat
  pattern_type : PatternType
  target : Str
  subplatform : Option Str
deriving DecidableEq

/-- `ThreatSignature` from src/scanner/database.rs:34-45. -/
structure ThreatSignature where
  id : Str
  name : Str
  threat_type : Str
  risk_level : Str
  encrypted_pattern : List Nat
  pattern_type : PatternType
  decompressed_size : Nat
  offset : Nat
  target : Str
deriving DecidableEq

abbrev SigMap := List (Str × Signature)
abbrev TypeMap := List (Str × List Str)

/-- The `ThreatSignature` built from a stored `Signature` by
`scan_file_sync` (both its cache-hit and hash-hit branches build the same
record, src/scanner/database.rs:204-214 and 230-240). -/
def sigToThreat (s : Signature) : ThreatSignature :=
  { id := s.id, name := s.name, threat_type := s.threat_type,
    risk_level := s.risk_level, encrypted_pattern := s.pattern,
    pattern_type := s.pattern_type, decompressed_size := s.pattern.length,
    offset := 0, target := s.target }

/-- Every stored signature's `id` field equals its map key — the invariant
established by `load_from_cvd` and `update_signatures`, which always
insert under key `sig.id`. -/
def idKeyed (m : SigMap) : Bool :=
  m.all (fun e => decide (e.2.id = e.1))

/-- One step of the insertion loops of `load_from_cvd`
(src/scanner/database.rs:101-107) and `update_signatures`
(src/scanner/database.rs:343-349): append the id to the threat-type
secondary index (`type_map.entry(t).or_insert_with(Vec::new).push(id)`). -/
def typePush (tm : TypeMap) (t id : Str) : TypeMap :=
  match aFind tm t with
  | some l => aInsert tm t (l ++ [id])
  | none => aInsert tm t [id]

/-- `SignatureDatabase::update_signatures` (src/scanner/database.rs:336-354):
for each signature, insert it into the id map under its id and push the id
onto the threat-type index. `load_from_cvd` runs the identical loop. -/
def updateSignatures (m : SigMap) (tm : TypeMap) (batch : List Signature) :
    SigMap × TypeMap :=
  batch.foldl
    (fun acc sig => (aInsert acc.1 sig.id sig, typePush acc.2 sig.threat_type sig.id))
    (m, tm)

/-- The id list a threat type currently maps to in the secondary index
(the empty list when the type has no entry). -/
def typeList (tm : TypeMap) (t : Str) : List Str :=
  (aFind tm t).getD []

/-- A concrete signature used to instantiate theorems: id `"S1"`,
ExactBytes pattern `[1]`. -/
def exSigA : Signature :=
  { id := ['S', '1'], name := ['a'], threat_type := ['v', 'i', 'r', 'u', 's'],
    risk_level := ['h', 'i', 'g', 'h'], pattern := [1],
    pattern_type := .byteSequence, target := [], subplatform := none }

/-- A second concrete signature with the same id `"S1"` but a different
pattern `[2]`. -/
def exSigB : Signature :=
  { exSigA with pattern := [2] }

/-- A concrete signature whose id is the one-character hex string `"0"`
(the only way `scan_file_sync`'s hash lookup can hit). -/
def exSigZero : Signature :=
  { exSigA with id := ['0'], name := ['0'] }

/-- The signature of the spec's end-to-end scenario: id `"S1"`, ExactBytes
pattern `b"MALWARE"`. -/
def exSigS1 : Signature :=
  { id := ['S', '1'], name := ['S', '1'],
    threat_type := ['v', 'i', 'r', 'u', 's'], risk_level := ['h', 'i', 'g', 'h'],
    pattern := [77, 65, 76, 87, 65, 82, 69], pattern_type := .byteSequence,
    target := [], subplatform := none }

/-! ## Scan cache (`LruCache<String, String>` used by `scan_file_sync`) -/

/-- The LRU cache, entries kept most-recently-used first. -/
structure LruCache where
  cap : Nat
  entries : List (Str × Str)
deriving DecidableEq

/-- Drop the binding of a key. -/
def lruRemove (es : List (Str × Str)) (k : Str) : List (Str × Str) :=
  es.filter (fun e => decide (e.1 ≠ k))

/-- `LruCache::get`: on a hit the entry is promoted to most recently
used. -/
def lruGet (c : LruCache) (k : Str) : Option Str × LruCache :=
  match aFind c.entries k with
  | none => (none, c)
  | some v => (some v, ⟨c.cap, (k, v) :: lruRemove c.entries k⟩)

/-- `LruCache::put`: replace-and-promote if the key is present, otherwise
insert, evicting the least-recently-used entry at capacity. -/
def lruPut (c : LruCache) (k v : Str) : LruCache :=
  if (aFind c.entries k).isSome then ⟨c.cap, (k, v) :: lruRemove c.entries k⟩
  else if c.cap ≤ c.entries.length then ⟨c.cap, (k, v) :: c.entries.dropLast⟩
  else ⟨c.cap, (k, v) :: c.entries⟩

/-! ## `SignatureDatabase::scan_file_sync` (src/scanner/database.rs:194-244)

The path is the cache key (`to_string_lossy`); the file read is supplied
as `readResult` (`none` models an `fs::read` error, which the code maps to
"no detection"). Note the function performs no pattern matching at all:
after a cache miss it only looks the file's formatted hash up as a key of
the signature map. -/

/-- The part of `scan_file_sync` after the cache-hit attempt: read the
file, hash it, and look the hex hash string up as a signature id
(src/scanner/database.rs:219-243). -/
def scanMiss (sigs : SigMap) (hashF : List Nat → Nat) (cache : LruCache)
    (path : Str) (readResult : Option (List Nat)) :
    Option ThreatSignature × LruCache :=
  match readResult with
  | none => (none, cache)
  | some data =>
    match aFind sigs (calculateHash hashF data) with
    | some sig => (some (sigToThreat sig), lruPut cache path sig.id)
    | none => (none, cache)

/-- `scan_file_sync`: consult the cache first (`cache.get(&path_str)`,
whose hit-promotion is inlined here, matching `lruGet`); on a cached id
that is still present in the store, answer from the store without reading
the file; otherwise fall through to `scanMiss`. -/
def scanFileSync (sigs : SigMap) (hashF : List Nat → Nat) (cache : LruCache)
    (path : Str) (readResult : Option (List Nat)) :
    Option ThreatSignature × LruCache :=
  match aFind cache.entries path with
  | some cachedId =>
    match aFind sigs cachedId with
    | some sig =>
      (some (sigToThreat sig),
        ⟨cache.cap, (path, cachedId) :: lruRemove cache.entries path⟩)
    | none =>
      scanMiss sigs hashF
        ⟨cache.cap, (path, cachedId) :: lruRemove cache.entries path⟩
        path readResult
  | none => scanMiss sigs hashF cache path readResult

/-! ## Path helpers for the engine (`Path::starts_with`,
`Path::extension`, `Path::file_name`) -/

/-- Split a character list on a separator; mirrors `str::split` /
`String::splitOn` (adjacent separators yield empty groups). -/
def splitOnChar (sep : Char) : Str → List Str
  | [] => [[]]
  | c :: cs =>
    if c = sep then [] :: splitOnChar sep cs
    else
      match splitOnChar sep cs with
      | [] => [[c]]
      | g :: gs => (c :: g) :: gs

/-- Non-empty `/`-separated components of a path (empty components are
dropped, as `Path::components` normalizes repeated separators). -/
def componentsOf (p : Str) : List Str :=
  (splitOnChar '/' p).filter (fun c => decide (c ≠ []))

/-- `Path::starts_with`: component-wise prefix test. -/
def pathStarts (p q : Str) : Bool :=
  leadsList (componentsOf q) (componentsOf p)

/-- `Path::file_name`: the last path component; `none` for an empty path
or one ending in `.` / `..`. -/
def fileName (p : Str) : Option Str :=
  match (componentsOf p).getLast? with
  | none => none
  | some c => if c = ['.'] ∨ c = ['.', '.'] then none else some c

/-- `Path::extension`: the part of the file name after the last `.`,
except that a lone leading dot (a dotfile) has no extension. -/
def extOf (p : Str) : Option Str :=
  match fileName p with
  | none => none
  | some n =>
    match splitOnChar '.' n with
    | [] => none
    | [_] => none
    | [[], _] => none
    | ps => ps.getLast?

/-! ## Scanner engine (src/scanner/engine.rs) -/

/-- `ScanMode` from src/scanner/engine.rs:19-24. -/
inductive ScanMode where
  | quick
  | full
  | custom
deriving DecidableEq

/-- `ThreatType` from src/scanner/engine.rs:35-47. -/
inductive ThreatType where
  | virus
  | trojan
  | worm
  | ransomware
  | rootkit
  | adware
  | spyware
  | hackTool
  | pua
  | unknown
deriving DecidableEq

/-- `RiskLevel` from src/scanner/engine.rs:66-72. -/
inductive RiskLevel where
  | low
  | medium
  | high
  | critical
deriving DecidableEq

def lowerStr (s : Str) : Str := s.map Char.toLower

/-- `impl From<&str> for ThreatType` (src/scanner/engine.rs:49-64). -/
def threatTypeFromStr (s : Str) : ThreatType :=
  let l := lowerStr s
  if l = "virus".toList then .virus
  else if l = "trojan".toList then .trojan
  else if l = "worm".toList then .worm
  else if l = "ransomware".toList then .ransomware
  else if l = "rootkit".toList then .rootkit
  else if l = "adware".toList then .adware
  else if l = "spyware".toList then .spyware
  else if l = "hacktool".toList then .hackTool
  else if l = "pua".toList then .pua
  else .unknown

/-- `impl From<&str> for RiskLevel` (src/scanner/engine.rs:74-83). -/
def riskLevelFromStr (s : Str) : RiskLevel :=
  let l := lowerStr s
  if l = "critical".toList then .critical
  else if l = "high".toList then .high
  else if l = "medium".toList then .medium
  else .low

/-- `ScanOptions` from src/scanner/engine.rs:8-17. -/
structure ScanOptions where
  scan_mode : ScanMode
  custom_paths : List Str
  exclude_paths : List Str
  exclude_extensions : List Str
  max_file_size : Nat
  thread_count : Nat
  quick_scan_paths : List Str

/-- `FileInfo` from src/scanner/engine.rs:85-92. -/
structure FileInfo where
  size : Nat
  permissions : Str
  created : Option Nat
  modified : Option Nat
  accessed : Option Nat
deriving DecidableEq

/-- `ScanResult` from src/scanner/engine.rs:26-33. -/
structure ScanResult where
  file_path : Str
  threat_type : ThreatType
  risk_level : RiskLevel
  signature_id : Str
  file_info : FileInfo
deriving DecidableEq

/-- The four counters of `ScanStats` (src/scanner/engine.rs:94-100); the
start time plays no role in the claims. -/
structure ScanStats where
  files_scanned : Nat
  threats_found : Nat
  bytes_scanned : Nat
  errors : Nat
deriving DecidableEq

/-- `ScannerEngine::should_exclude` (src/scanner/engine.rs:235-240):
path-prefix exclusion or extension exclusion
(`Vec::contains` on the extension string). -/
def shouldExclude (opts : ScanOptions) (path : Str) : Bool :=
  opts.exclude_paths.any (fun p => pathStarts path p) ||
  (match extOf path with
   | some e => opts.exclude_extensions.any (fun x => decide (x = e))
   | none => false)

/-- One item of the `walkdir` iteration stream consumed by `start_scan`:
either a directory entry (with its path, its `file_type().is_file()`
answer, the `fs::metadata` length — `none` when metadata fails — and the
`fs::read` outcome — `none` when reading fails), or a traversal error. -/
inductive WalkEntry where
  | ok (path : Str) (isFile : Bool) (meta : Option Nat) (content : Option (List Nat))
  | err
deriving DecidableEq

/-- Mutable state threaded through one `start_scan` invocation: the
result vector, the statistics counters, and the shared scan cache. -/
structure ScanState where
  results : List ScanResult
  stats : ScanStats
  cache : LruCache
deriving DecidableEq

/-- The body of the `for entry in iter` loop of `ScannerEngine::start_scan`
(src/scanner/engine.rs:176-211): a traversal error only increments the
error counter; a regular, non-excluded file whose metadata succeeds and
whose size is within bounds is counted, then handed to `scan_file_sync`;
a positive answer appends a `ScanResult`. -/
def scanEntry (sigs : SigMap) (hashF : List Nat → Nat) (opts : ScanOptions)
    (st : ScanState) (e : WalkEntry) : ScanState :=
  match e with
  | .err => { st with stats := { st.stats with errors := st.stats.errors + 1 } }
  | .ok path isFile meta content =>
    if !(shouldExclude opts path) && isFile then
      match meta with
      | none => st
      | some len =>
        if len ≤ opts.max_file_size then
          let stats1 := { st.stats with
            files_scanned := st.stats.files_scanned + 1,
            bytes_scanned := st.stats.bytes_scanned + len }
          match scanFileSync sigs hashF st.cache path content with
          | (some threat, cache1) =>
            { results := st.results ++
                [{ file_path := path,
                   threat_type := threatTypeFromStr threat.threat_type,
                   risk_level := riskLevelFromStr threat.risk_level,
                   signature_id := threat.id,
                   file_info := { size := len, permissions := [],
                                  created := none, modified := none,
                                  accessed := none } }],
              stats := { stats1 with threats_found := stats1.threats_found + 1 },
              cache := cache1 }
          | (none, cache1) => { st with stats := stats1, cache := cache1 }
        else st
    else st

/-- `ScannerEngine::start_scan` (src/scanner/engine.rs:159-215) as a fold
of `scanEntry` over the walk stream of the scan roots. -/
def startScan (sigs : SigMap) (hashF : List Nat → Nat) (opts : ScanOptions)
    (entries : List WalkEntry) (st : ScanState) : ScanState :=
  entries.foldl (scanEntry sigs hashF opts) st

/-- A fresh engine: empty results, zeroed counters
(`ScanStats::new`), and the empty 10000-entry cache built by
`SignatureDatabase::new`. -/
def initState : ScanState :=
  { results := [], stats := ⟨0, 0, 0, 0⟩, cache := ⟨10000, []⟩ }

/-- Whether a walk stream item is a traversal error. -/
def isErrEntry : WalkEntry → Bool
  | .err => true
  | .ok _ _ _ _ => false

/-- Everything of the scan state except the error counter: the result
vector, the cache, and the other three statistics. -/
def coreOf (st : ScanState) :
    List ScanResult × LruCache × Nat × Nat × Nat :=
  (st.results, st.cache, st.stats.files_scanned, st.stats.bytes_scanned,
    st.stats.threats_found)

/-- Options of the end-to-end scenario: a custom scan with no exclusions
and a 1 MB size limit. -/
def exScanOptions : ScanOptions :=
  { scan_mode := .custom, custom_paths := [['d']], exclude_paths := [],
    exclude_extensions := [], max_file_size := 1000000, thread_count := 1,
    quick_scan_paths := [] }

/-- The walk stream of the scenario's directory: `a.bin` holding
`b"xxMALWAREyy"` and `b.txt` holding `b"clean"`, both regular readable
files. -/
def exEntries : List WalkEntry :=
  [ .ok ['a', '.', 'b', 'i', 'n'] true (some 11)
      (some [120, 120, 77, 65, 76, 87, 65, 82, 69, 121, 121]),
    .ok ['b', '.', 't', 'x', 't'] true (some 5)
      (some [99, 108, 101, 97, 110]) ]

/-! ## Quarantine subsystem (`QuarantineManager`, src/core/security.rs:76-224)

The filesystem is an association list from path to byte content. The
AES-256-CTR keystream (fixed all-zero nonce, `Ctr128BE::new(cipher,
&Default::default())`) is abstracted as a byte stream `ks : Nat → Nat`
determined by the key, and HMAC-SHA256 as `macF : key → message → tag`;
the embedding only relies on what the code relies on: CTR
encryption/decryption are the same XOR pass, and the tag is a
deterministic 32-byte function of the key and the ciphertext. -/

abbrev QFS := List (Str × List Nat)

def fsWrite (fs : QFS) (p : Str) (bytes : List Nat) : QFS := aInsert fs p bytes

def fsRemove (fs : QFS) (p : Str) : QFS :=
  fs.filter (fun e => decide (e.1 ≠ p))

/-- Error taxonomy of the quarantine operations (the Rust code returns
`anyhow` errors; the spec's taxonomy names them `IoError`, `FormatError`,
`CryptoError`). -/
inductive QError where
  | invalidName
  | ioError
  | notFound
  | formatError
  | cryptoError
deriving DecidableEq

/-- One CTR pass starting at counter position `i`: XOR each byte with the
keystream byte of its position. Encryption and decryption are both this
function, as in `cipher.encrypt` / `cipher.decrypt` over `Ctr128BE`. -/
def ctrApply (ks : Nat → Nat) : Nat → List Nat → List Nat
  | _, [] => []
  | i, b :: bs => (b ^^^ ks i) :: ctrApply ks (i + 1) bs

/-- `QuarantineManager` configuration (src/core/security.rs:76-79). -/
structure QuarantineManager where
  quarantine_dir : Str
  encryption_key : Option (List Nat)

/-- `QuarantineManager::encrypt_aes_256_gcm` (src/core/security.rs:132-158):
key setup fails unless the key is 32 bytes (`Aes256::new_from_slice`);
otherwise the result is `ciphertext ++ tag` with the keyed tag computed
over the ciphertext. -/
def encryptAes256Gcm (ks : Nat → Nat) (macF : List Nat → List Nat → List Nat)
    (key : List Nat) (data : List Nat) : Except QError (List Nat) :=
  if key.length ≠ 32 then .error .cryptoError
  else
    let encrypted := ctrApply ks 0 data
    .ok (encrypted ++ macF key encrypted)

/-- `QuarantineManager::quarantine_file` (src/core/security.rs:90-110)
with `encrypt_and_copy` (112-130) inlined. `ts` is the formatted local
timestamp; `wok` injects the success of the destination write, and
`partialB` stands for whatever bytes a failed write left behind at the
destination. The original file is removed only on the all-success path,
after the destination write. -/
def quarantineFile (ks : Nat → Nat) (macF : List Nat → List Nat → List Nat)
    (qm : QuarantineManager) (fs : QFS) (ts : Str) (wok : Bool)
    (partialB : List Nat) (file_path : Str) : Except QError Str × QFS :=
  match fileName file_path with
  | none => (.error .invalidName, fs)
  | some fname =>
    let qpath := qm.quarantine_dir ++ '/' :: (ts ++ '_' :: fname)
    match qm.encryption_key with
    | some key =>
      match aFind fs file_path with
      | none => (.error .ioError, fs)
      | some content =>
        match encryptAes256Gcm ks macF key content with
        | .error e => (.error e, fs)
        | .ok art =>
          if wok then (.ok qpath, fsRemove (fsWrite fs qpath art) file_path)
          else (.error .ioError, fsWrite fs qpath partialB)
    | none =>
      match aFind fs file_path with
      | none => (.error .ioError, fs)
      | some content =>
        if wok then (.ok qpath, fsRemove (fsWrite fs qpath content) file_path)
        else (.error .ioError, fsWrite fs qpath partialB)

/-- Join groups back with the separator (used to rebuild the remainder a
`splitn(2, _)` keeps in one piece). -/
def joinWith (sep : Char) : List Str → Str
  | [] => []
  | [g] => g
  | g :: gs => g ++ sep :: joinWith sep gs

/-- `splitn(2, '_')`: `none` when the string holds no separator, otherwise
the part before the first separator and everything after it. -/
def splitn2 (sep : Char) (s : Str) : Option (Str × Str) :=
  match splitOnChar sep s with
  | [] => none
  | [_] => none
  | a :: rest => some (a, joinWith sep rest)

/-- `QuarantineManager::restore_file` (src/core/security.rs:160-183) with
`decrypt_and_copy` (185-216) inlined: require the artifact to exist,
recover the original name after the first `_` of the artifact's file
name, and either verify-then-decrypt (key configured) or copy verbatim.
On a failed tag verification the error is returned before anything is
written. -/
def restoreFile (ks : Nat → Nat) (macF : List Nat → List Nat → List Nat)
    (qm : QuarantineManager) (fs : QFS) (cwd : Str) (quarantine_path : Str) :
    Except QError Str × QFS :=
  match aFind fs quarantine_path with
  | none => (.error .notFound, fs)
  | some stored =>
    match fileName quarantine_path with
    | none => (.error .invalidName, fs)
    | some fname =>
      match splitn2 '_' fname with
      | none => (.error .formatError, fs)
      | some (_, original_name) =>
        let restore_path := cwd ++ '/' :: original_name
        match qm.encryption_key with
        | some key =>
          if stored.length < 32 then (.error .formatError, fs)
          else
            let encrypted := stored.take (stored.length - 32)
            let tag := stored.drop (stored.length - 32)
            if macF key encrypted = tag then
              if key.length ≠ 32 then (.error .cryptoError, fs)
              else (.ok restore_path, fsWrite fs restore_path (ctrApply ks 0 encrypted))
            else (.error .cryptoError, fs)
        | none => (.ok restore_path, fsWrite fs restore_path stored)

/-! # Supporting lemmas -/

@[simp] theorem leadsList_nil {α : Type} [DecidableEq α] (l : List α) :
    leadsList [] l = true := rfl

@[simp] theorem leadsList_cons_nil {α : Type} [DecidableEq α] (a : α) (as : List α) :
    leadsList (a :: as) [] = false := rfl

theorem leadsList_append {α : Type} [DecidableEq α] (pre post : List α) :
    leadsList pre (pre ++ post) = true := by
  induction pre with
  | nil => rfl
  | cons a as ih => simp [leadsList, ih]

@[simp] theorem matchExtendedPattern_nil_pattern (d : List Nat) :
    matchExtendedPattern d [] = true := by
  cases d <;> simp [matchExtendedPattern]

@[simp] theorem matchExtendedPattern_star (b : Nat) (d p : List Nat) :
    matchExtendedPattern (b :: d) (42 :: p) = true := by
  simp [matchExtendedPattern]

@[simp] theorem matchExtendedPattern_query (b : Nat) (d p : List Nat) :
    matchExtendedPattern (b :: d) (63 :: p) = matchExtendedPattern d p := by
  simp [matchExtendedPattern]

theorem aFind_cons {α : Type} (e : Str × α) (rest : List (Str × α)) (key : Str) :
    aFind (e :: rest) key = if e.1 = key then some e.2 else aFind rest key := rfl

theorem aInsert_cons {α : Type} (e : Str × α) (rest : List (Str × α)) (k : Str) (v : α) :
    aInsert (e :: rest) k v = if e.1 = k then (k, v) :: rest else e :: aInsert rest k v := rfl

theorem aFind_aInsert_self {α : Type} (m : List (Str × α)) (k : Str) (v : α) :
    aFind (aInsert m k v) k = some v := by
  induction m with
  | nil => simp [aInsert, aFind]
  | cons e rest ih =>
    rw [aInsert_cons]
    by_cases h : e.1 = k
    · rw [if_pos h, aFind_cons, if_pos rfl]
    · rw [if_neg h, aFind_cons, if_neg h, ih]

theorem aFind_aInsert_ne {α : Type} (m : List (Str × α)) (k k1 : Str) (v : α)
    (h : k1 ≠ k) : aFind (aInsert m k v) k1 = aFind m k1 := by
  have h2 : ¬(k = k1) := Ne.symm h
  induction m with
  | nil => simp [aInsert, aFind, h2]
  | cons e rest ih =>
    rw [aInsert_cons]
    by_cases h3 : e.1 = k
    · rw [if_pos h3, aFind_cons, aFind_cons, if_neg h2,
        if_neg (show ¬(e.1 = k1) by rw [h3]; exact h2)]
    · rw [if_neg h3, aFind_cons, aFind_cons, ih]

theorem keyCount_of_not_mem {α : Type} (m : List (Str × α)) (k : Str)
    (h : k ∉ m.map Prod.fst) : keyCount m k = 0 := by
  induction m with
  | nil => rfl
  | cons e rest ih =>
    simp only [List.map_cons, List.mem_cons, not_or] at h
    have h1 : ¬(e.1 = k) := Ne.symm h.1
    simp only [keyCount, List.filter_cons, h1, decide_False, if_false, cond_false]
    exact ih h.2

theorem mem_keys_aInsert {α : Type} (m : List (Str × α)) (k x : Str) (v : α) :
    x ∈ (aInsert m k v).map Prod.fst ↔ x ∈ m.map Prod.fst ∨ x = k := by
  induction m with
  | nil => simp [aInsert]
  | cons e rest ih =>
    rw [aInsert_cons]
    by_cases h : e.1 = k
    · rw [if_pos h]
      simp only [List.map_cons, List.mem_cons, h]
      tauto
    · rw [if_neg h]
      simp only [List.map_cons, List.mem_cons, ih]
      tauto

theorem nodupKeys_aInsert {α : Type} (m : List (Str × α)) (k : Str) (v : α)
    (h : nodupKeys m) : nodupKeys (aInsert m k v) := by
  induction m with
  | nil => simp [aInsert, nodupKeys]
  | cons e rest ih =>
    have h0 := h
    simp only [nodupKeys, List.map_cons, List.nodup_cons] at h0
    rw [aInsert_cons]
    by_cases he : e.1 = k
    · rw [if_pos he]
      show nodupKeys ((k, v) :: rest)
      simp only [nodupKeys, List.map_cons, List.nodup_cons]
      exact ⟨he ▸ h0.1, h0.2⟩
    · rw [if_neg he]
      show nodupKeys (e :: aInsert rest k v)
      simp only [nodupKeys, List.map_cons, List.nodup_cons]
      refine ⟨?_, ih h0.2⟩
      intro hmem
      rcases (mem_keys_aInsert rest k e.1 v).mp hmem with hm | hm
      · exact h0.1 hm
      · exact he hm

theorem keyCount_cons_self {α : Type} (e : Str × α) (rest : List (Str × α))
    (k : Str) (h : e.1 = k) : keyCount (e :: rest) k = keyCount rest k + 1 := by
  simp [keyCount, List.filter_cons, h]

theorem keyCount_cons_ne {α : Type} (e : Str × α) (rest : List (Str × α))
    (k : Str) (h : ¬(e.1 = k)) : keyCount (e :: rest) k = keyCount rest k := by
  simp [keyCount, List.filter_cons, h]

theorem keyCount_aInsert_self {α : Type} (m : List (Str × α)) (k : Str) (v : α)
    (h : nodupKeys m) : keyCount (aInsert m k v) k = 1 := by
  induction m with
  | nil => simp [aInsert, keyCount, List.filter_cons]
  | cons e rest ih =>
    have h0 := h
    simp only [nodupKeys, List.map_cons, List.nodup_cons] at h0
    rw [aInsert_cons]
    by_cases h1 : e.1 = k
    · rw [if_pos h1, keyCount_cons_self _ _ _ rfl,
        keyCount_of_not_mem rest k (h1 ▸ h0.1)]
    · rw [if_neg h1, keyCount_cons_ne _ _ _ h1, ih h0.2]

theorem typeList_typePush_self (tm : TypeMap) (t id : Str) :
    typeList (typePush tm t id) t = typeList tm t ++ [id] := by
  unfold typePush typeList
  cases h : aFind tm t <;> simp [h, aFind_aInsert_self]

theorem typeList_typePush_ne (tm : TypeMap) (t t1 id : Str) (h : t1 ≠ t) :
    typeList (typePush tm t id) t1 = typeList tm t1 := by
  unfold typePush typeList
  cases hf : aFind tm t <;> simp [aFind_aInsert_ne _ _ _ _ h]

theorem updateSignatures_cons (m : SigMap) (tm : TypeMap) (sig : Signature)
    (rest : List Signature) :
    updateSignatures m tm (sig :: rest) =
      updateSignatures (aInsert m sig.id sig) (typePush tm sig.threat_type sig.id) rest := rfl

theorem updateSignatures_append (m : SigMap) (tm : TypeMap)
    (l1 l2 : List Signature) :
    updateSignatures m tm (l1 ++ l2) =
      updateSignatures (updateSignatures m tm l1).1 (updateSignatures m tm l1).2 l2 := by
  unfold updateSignatures
  rw [List.foldl_append]

theorem updateSignatures_index_append_only (m : SigMap) (tm : TypeMap)
    (batch : List Signature) (t : Str) :
    ∃ s, typeList (updateSignatures m tm batch).2 t = typeList tm t ++ s := by
  induction batch generalizing m tm with
  | nil => exact ⟨[], by simp [updateSignatures]⟩
  | cons sig rest ih =>
    rw [updateSignatures_cons]
    obtain ⟨s, hs⟩ := ih (aInsert m sig.id sig) (typePush tm sig.threat_type sig.id)
    by_cases ht : t = sig.threat_type
    · subst ht
      exact ⟨sig.id :: s, by rw [hs, typeList_typePush_self]; simp⟩
    · exact ⟨s, by rw [hs, typeList_typePush_ne _ _ _ _ ht]⟩

theorem updateSignatures_replicate_fst (sig : Signature) (k : Nat) :
    (updateSignatures [] [] (List.replicate k sig)).1 =
      if k = 0 then [] else [(sig.id, sig)] := by
  induction k with
  | zero => rfl
  | succ n ih =>
    rw [List.replicate_succ', updateSignatures_append, ih]
    by_cases h : n = 0 <;> simp [h, updateSignatures_cons, updateSignatures, aInsert]

theorem updateSignatures_replicate_snd (sig : Signature) (k : Nat) :
    typeList (updateSignatures [] [] (List.replicate k sig)).2 sig.threat_type =
      List.replicate k sig.id := by
  induction k with
  | zero => rfl
  | succ n ih =>
    rw [List.replicate_succ', updateSignatures_append, updateSignatures_cons]
    show typeList (typePush _ _ _) _ = _
    rw [typeList_typePush_self, ih, List.replicate_succ']

theorem hexDigitChar_ne_S (n : Nat) (h : n < 16) : hexDigitChar n ≠ 'S' := by
  have hall : ∀ m, m < 16 → hexDigitChar m ≠ 'S' := by decide
  exact hall n h

theorem sChar_not_mem_hexDigits (n : Nat) : 'S' ∉ hexDigits n := by
  induction n using Nat.strong_induction_on with
  | _ n ih =>
    rw [hexDigits]
    by_cases h : n < 16
    · rw [if_pos h]
      intro hmem
      rcases List.mem_singleton.mp hmem with hm
      exact hexDigitChar_ne_S n h hm.symm
    · rw [if_neg h]
      intro hmem
      rcases List.mem_append.mp hmem with hm | hm
      · exact ih (n / 16) (Nat.div_lt_self (by omega) (by omega)) hm
      · rcases List.mem_singleton.mp hm with hm2
        exact hexDigitChar_ne_S (n % 16) (Nat.mod_lt _ (by omega)) hm2.symm

theorem calculateHash_ne_S1 (hashF : List Nat → Nat) (data : List Nat) :
    calculateHash hashF data ≠ ['S', '1'] := by
  intro h
  have h2 : hexDigits (hashF data) = ['S', '1'] := h
  exact sChar_not_mem_hexDigits (hashF data)
    (by rw [h2]; exact List.mem_cons_self 'S' ['1'])

theorem idKeyed_aFind (sigs : SigMap) (k : Str) (s : Signature)
    (hk : idKeyed sigs = true) (h : aFind sigs k = some s) : s.id = k := by
  induction sigs with
  | nil => exact Option.noConfusion h
  | cons e rest ih =>
    simp only [idKeyed, List.all_cons, Bool.and_eq_true, decide_eq_true_eq] at hk
    rw [aFind_cons] at h
    by_cases he : e.1 = k
    · rw [if_pos he] at h
      have hs : e.2 = s := by injection h
      rw [← hs, ← he]
      exact hk.1
    · rw [if_neg he] at h
      exact ih hk.2 h

theorem lruPut_find_self (c : LruCache) (k v : Str) :
    aFind (lruPut c k v).entries k = some v := by
  unfold lruPut
  split_ifs <;> rw [aFind_cons, if_pos rfl]

theorem scanMiss_pos (sigs : SigMap) (hashF : List Nat → Nat) (c : LruCache)
    (p : Str) (r : Option (List Nat)) (ts : ThreatSignature) (c1 : LruCache)
    (hkeyed : idKeyed sigs = true)
    (h : scanMiss sigs hashF c p r = (some ts, c1)) :
    ∃ sig, aFind sigs ts.id = some sig ∧ sigToThreat sig = ts ∧
      aFind c1.entries p = some ts.id := by
  unfold scanMiss at h
  split at h
  · exact absurd (congrArg Prod.fst h) (by simp)
  · rename_i data
    split at h
    · rename_i sig hsig
      have hts : sigToThreat sig = ts := Option.some.inj (congrArg Prod.fst h)
      have hc1 : lruPut c p sig.id = c1 := congrArg Prod.snd h
      have hid : sig.id = calculateHash hashF data :=
        idKeyed_aFind sigs _ sig hkeyed hsig
      refine ⟨sig, ?_, hts, ?_⟩
      · rw [← hts]
        show aFind sigs sig.id = some sig
        rw [hid, hsig]
      · rw [← hc1, ← hts]
        show aFind (lruPut c p sig.id).entries p = some sig.id
        exact lruPut_find_self c p sig.id
    · exact absurd (congrArg Prod.fst h) (by simp)

theorem scanFileSync_pos (sigs : SigMap) (hashF : List Nat → Nat) (c : LruCache)
    (p : Str) (r : Option (List Nat)) (ts : ThreatSignature) (c1 : LruCache)
    (hkeyed : idKeyed sigs = true)
    (h : scanFileSync sigs hashF c p r = (some ts, c1)) :
    ∃ sig, aFind sigs ts.id = some sig ∧ sigToThreat sig = ts ∧
      aFind c1.entries p = some ts.id := by
  unfold scanFileSync at h
  split at h
  · rename_i cid hfind
    split at h
    · rename_i sig hsig
      have hts : sigToThreat sig = ts := Option.some.inj (congrArg Prod.fst h)
      have hc1 : (⟨c.cap, (p, cid) :: lruRemove c.entries p⟩ : LruCache) = c1 :=
        congrArg Prod.snd h
      have hid : sig.id = cid := idKeyed_aFind sigs cid sig hkeyed hsig
      refine ⟨sig, ?_, hts, ?_⟩
      · rw [← hts]
        show aFind sigs sig.id = some sig
        rw [hid, hsig]
      · rw [← hc1, ← hts]
        show aFind ((p, cid) :: lruRemove c.entries p) p = some (sigToThreat sig).id
        rw [aFind_cons, if_pos rfl]
        show some cid = some sig.id
        rw [hid]
    · exact scanMiss_pos sigs hashF _ p r ts c1 hkeyed h
  · exact scanMiss_pos sigs hashF c p r ts c1 hkeyed h

theorem scanFileSync_cache_hit (sigs : SigMap) (hashF : List Nat → Nat)
    (c : LruCache) (p : Str) (r : Option (List Nat)) (cid : Str) (sig : Signature)
    (hc : aFind c.entries p = some cid) (hs : aFind sigs cid = some sig) :
    scanFileSync sigs hashF c p r =
      (some (sigToThreat sig), ⟨c.cap, (p, cid) :: lruRemove c.entries p⟩) := by
  unfold scanFileSync
  simp only [hc, hs]

/-! # Claims -/

/-- C3 — the spec claims the ExactBytes match with an empty pattern is
total and returns true; the code instead calls `data.windows(0)`, which
panics in Rust for a zero window size, for every input. The panic is the
`none` value of the embedded `matchPattern`. -/
theorem c3_empty_exact_pattern_panics (data : List Nat) :
    matchPattern data [] PatternType.byteSequence = none := rfl

/-- C2 counterexample — the claim's own instance fails on the code:
`match_extended_pattern` is anchored at the start of the data, so pattern
`b"AB*XY"` (bytes `[65, 66, 42, 88, 89]`) does not match data
`b"ZZABQQQ"` (bytes `[90, 90, 65, 66, 81, 81, 81]`): the literal run
`AB` is compared at position 0 only and the `*` is never reached. -/
theorem c2_wildcard_counterexample :
    matchPattern [90, 90, 65, 66, 81, 81, 81] [65, 66, 42, 88, 89]
      PatternType.extendedByteSequence = some false := by
  simp [matchPattern, matchExtendedPattern, litRun, leadsList]

/-- C7 — cache staleness: once a scan of `path` has returned a positive
result `ts` (populating the cache), any rescan of `path` through the
cache returns a result with the same signature id, and the rescan's
outcome is independent of whatever the file now holds (`r1` / `r2` range
over every possible read outcome, including a changed content and a
failed read): the cached verdict short-circuits re-reading and
re-matching. `hkeyed` is the store invariant that every signature sits
under its own id. -/
theorem c7_cache_staleness (sigs : SigMap) (hashF : List Nat → Nat)
    (cache : LruCache) (path : Str) (c1 : List Nat) (ts : ThreatSignature)
    (cache1 : LruCache) (hkeyed : idKeyed sigs = true)
    (hfirst : scanFileSync sigs hashF cache path (some c1) = (some ts, cache1))
    (r1 r2 : Option (List Nat)) :
    (scanFileSync sigs hashF cache1 path r1).1 = some ts ∧
    scanFileSync sigs hashF cache1 path r1 =
      scanFileSync sigs hashF cache1 path r2 := by
  obtain ⟨sig, hs, hts, hc⟩ :=
    scanFileSync_pos sigs hashF cache path (some c1) ts cache1 hkeyed hfirst
  rw [scanFileSync_cache_hit sigs hashF cache1 path r1 ts.id sig hc hs,
    scanFileSync_cache_hit sigs hashF cache1 path r2 ts.id sig hc hs]
  exact ⟨by rw [hts], rfl⟩

/-- C7 witness: a store holding one signature under the hex id `"0"`, a
constant hash function, a first scan of file `"f"` with content `[1]`
that hits and populates the cache, then rescans with changed content
`[2]` and with an unreadable file. -/
theorem c7_cache_staleness_witness :
    (scanFileSync [(['0'], exSigZero)] (fun _ => 0)
        ⟨10000, [(['f'], ['0'])]⟩ ['f'] (some [2])).1 = some (sigToThreat exSigZero) ∧
    scanFileSync [(['0'], exSigZero)] (fun _ => 0)
        ⟨10000, [(['f'], ['0'])]⟩ ['f'] (some [2]) =
      scanFileSync [(['0'], exSigZero)] (fun _ => 0)
        ⟨10000, [(['f'], ['0'])]⟩ ['f'] none := by
  have hh : calculateHash (fun _ => (0 : Nat)) [1] = ['0'] := by
    show hexDigits 0 = ['0']
    rw [hexDigits]
    norm_num
    decide
  have hfirst : scanFileSync [(['0'], exSigZero)] (fun _ => 0)
      ⟨10000, []⟩ ['f'] (some [1]) =
      (some (sigToThreat exSigZero), ⟨10000, [(['f'], ['0'])]⟩) := by
    unfold scanFileSync scanMiss
    simp only [hh]
    simp [aFind, lruPut, lruRemove, exSigZero, exSigA]
  exact c7_cache_staleness [(['0'], exSigZero)] (fun _ => 0) ⟨10000, []⟩
    ['f'] [1] (sigToThreat exSigZero) ⟨10000, [(['f'], ['0'])]⟩
    (by decide) hfirst (some [2]) none

/-- C1 — the spec's end-to-end scenario fails on the code: with the store
loaded with exactly the signature `{id "S1", ExactBytes, b"MALWARE"}`,
scanning the directory holding `a.bin = b"xxMALWAREyy"` and
`b.txt = b"clean"` produces NO `ScanResult` at all (the claim asks for
exactly one, for `a.bin`). Both files are walked and counted, and the
`match_pattern` ExactBytes matcher itself would accept `a.bin`'s content
(first conjunct) — but `start_scan` detects via `scan_file_sync`, which
never calls `match_pattern`: it only looks the file's formatted hash up
as a signature id, and a lowercase-hex string can never equal `"S1"`.
The result holds for every possible 64-bit hash function. -/
theorem c1_end_to_end_scan_finds_nothing (hashF : List Nat → Nat) :
    matchPattern [120, 120, 77, 65, 76, 87, 65, 82, 69, 121, 121]
      [77, 65, 76, 87, 65, 82, 69] PatternType.byteSequence = some true ∧
    (startScan (updateSignatures [] [] [exSigS1]).1 hashF exScanOptions
        exEntries initState).results = [] ∧
    (startScan (updateSignatures [] [] [exSigS1]).1 hashF exScanOptions
        exEntries initState).stats.files_scanned = 2 := by
  have hsigs : (updateSignatures [] [] [exSigS1]).1 = [(['S', '1'], exSigS1)] := rfl
  have hne1 : ¬(['S', '1'] = calculateHash hashF
      [120, 120, 77, 65, 76, 87, 65, 82, 69, 121, 121]) :=
    fun h => calculateHash_ne_S1 hashF _ h.symm
  have hne2 : ¬(['S', '1'] = calculateHash hashF [99, 108, 101, 97, 110]) :=
    fun h => calculateHash_ne_S1 hashF _ h.symm
  have hex1 : shouldExclude exScanOptions ['a', '.', 'b', 'i', 'n'] = false := by decide
  have hex2 : shouldExclude exScanOptions ['b', '.', 't', 'x', 't'] = false := by decide
  refine ⟨by decide, ?_⟩
  rw [hsigs]
  have hm1 : 11 ≤ exScanOptions.max_file_size := by decide
  have hm2 : 5 ≤ exScanOptions.max_file_size := by decide
  simp [startScan, exEntries, scanEntry, hex1, hex2, initState, hm1, hm2,
    scanFileSync, scanMiss, aFind, hne1, hne2]

theorem splitOnChar_ne_nil (sep : Char) (s : Str) : splitOnChar sep s ≠ [] := by
  induction s with
  | nil => simp [splitOnChar]
  | cons c cs ih =>
    unfold splitOnChar
    by_cases h : c = sep
    · simp [h]
    · rw [if_neg h]
      cases hs : splitOnChar sep cs with
      | nil => simp
      | cons g gs => simp

theorem splitOnChar_cons (sep c : Char) (cs : Str) :
    splitOnChar sep (c :: cs) =
      if c = sep then [] :: splitOnChar sep cs
      else
        match splitOnChar sep cs with
        | [] => [[c]]
        | g :: gs => (c :: g) :: gs := rfl

theorem splitOnChar_append_sep (sep : Char) (xs ys : Str) :
    splitOnChar sep (xs ++ sep :: ys) =
      splitOnChar sep xs ++ splitOnChar sep ys := by
  induction xs with
  | nil => simp [splitOnChar]
  | cons c cs ih =>
    show splitOnChar sep (c :: (cs ++ sep :: ys)) = _
    rw [splitOnChar_cons sep c (cs ++ sep :: ys), splitOnChar_cons sep c cs]
    by_cases h : c = sep
    · rw [if_pos h, if_pos h, ih]
      rfl
    · rw [if_neg h, if_neg h, ih]
      cases hs : splitOnChar sep cs with
      | nil => exact absurd hs (splitOnChar_ne_nil sep cs)
      | cons g gs =>
        rw [List.cons_append]
        rfl

theorem splitOnChar_no_sep (sep : Char) (s : Str) (h : sep ∉ s) :
    splitOnChar sep s = [s] := by
  induction s with
  | nil => rfl
  | cons c cs ih =>
    simp only [List.mem_cons, not_or] at h
    unfold splitOnChar
    rw [if_neg (Ne.symm h.1), ih h.2]

theorem mem_splitOnChar_no_sep (sep : Char) (s : Str) (g : Str)
    (hm : g ∈ splitOnChar sep s) : sep ∉ g := by
  induction s generalizing g with
  | nil =>
    rcases List.mem_singleton.mp hm with rfl
    simp
  | cons c cs ih =>
    unfold splitOnChar at hm
    by_cases h : c = sep
    · rw [if_pos h] at hm
      rcases List.mem_cons.mp hm with rfl | hm2
      · simp
      · exact ih g hm2
    · rw [if_neg h] at hm
      cases hs : splitOnChar sep cs with
      | nil => exact absurd hs (splitOnChar_ne_nil sep cs)
      | cons g0 gs =>
        rw [hs] at hm
        rcases List.mem_cons.mp hm with rfl | hm2
        · intro hsep
          rcases List.mem_cons.mp hsep with h1 | h1
          · exact h h1.symm
          · exact ih g0 (hs ▸ List.mem_cons_self g0 gs) h1
        · exact ih g (hs ▸ List.mem_cons_of_mem g0 hm2)

theorem componentsOf_append_sep (xs ys : Str) :
    componentsOf (xs ++ '/' :: ys) = componentsOf xs ++ componentsOf ys := by
  unfold componentsOf
  rw [splitOnChar_append_sep, List.filter_append]

theorem componentsOf_no_sep (ys : Str) (h1 : '/' ∉ ys) (h2 : ys ≠ []) :
    componentsOf ys = [ys] := by
  unfold componentsOf
  rw [splitOnChar_no_sep '/' ys h1]
  simp [h2]

theorem fileName_concat (xs ys : Str) (h1 : '/' ∉ ys) (h2 : ys ≠ [])
    (h3 : ys ≠ ['.']) (h4 : ys ≠ ['.', '.']) :
    fileName (xs ++ '/' :: ys) = some ys := by
  unfold fileName
  rw [componentsOf_append_sep, componentsOf_no_sep ys h1 h2,
    List.getLast?_concat]
  simp [h3, h4]

theorem mem_of_getLast? {α : Type} (l : List α) (a : α)
    (h : l.getLast? = some a) : a ∈ l := by
  induction l with
  | nil => exact Option.noConfusion h
  | cons x xs ih =>
    cases hxs : xs with
    | nil =>
      subst hxs
      rcases Option.some.inj h with rfl
      exact List.mem_singleton.mpr rfl
    | cons y ys =>
      subst hxs
      rw [List.getLast?_cons_cons] at h
      exact List.mem_cons_of_mem x (ih h)

theorem fileName_no_slash (p c : Str) (h : fileName p = some c) :
    '/' ∉ c ∧ c ≠ [] := by
  unfold fileName at h
  cases hg : (componentsOf p).getLast? with
  | none => rw [hg] at h; exact Option.noConfusion h
  | some g =>
    rw [hg] at h
    have h2 : (if g = ['.'] ∨ g = ['.', '.'] then none else some g) = some c := h
    by_cases hd : g = ['.'] ∨ g = ['.', '.']
    · rw [if_pos hd] at h2; exact Option.noConfusion h2
    · rw [if_neg hd] at h2
      have hgc : g = c := Option.some.inj h2
      subst hgc
      have hmem : g ∈ componentsOf p := mem_of_getLast? _ _ hg
      unfold componentsOf at hmem
      have hmem2 := List.mem_of_mem_filter hmem
      have hpred := List.of_mem_filter hmem
      refine ⟨mem_splitOnChar_no_sep '/' p g hmem2, ?_⟩
      simpa using hpred

theorem splitn2_concat (a b : Str) :
    ∃ pr : Str × Str, splitn2 '_' (a ++ '_' :: b) = some pr := by
  unfold splitn2
  rw [splitOnChar_append_sep]
  cases ha : splitOnChar '_' a with
  | nil => exact absurd ha (splitOnChar_ne_nil '_' a)
  | cons x xs =>
    cases hb : splitOnChar '_' b with
    | nil => exact absurd hb (splitOnChar_ne_nil '_' b)
    | cons y ys =>
      cases hxs : xs ++ y :: ys with
      | nil => simp at hxs
      | cons t ts =>
        rw [List.cons_append, hxs]
        exact ⟨_, rfl⟩

theorem aFind_fsWrite_self (fs : QFS) (p : Str) (b : List Nat) :
    aFind (fsWrite fs p b) p = some b :=
  aFind_aInsert_self fs p b

theorem aFind_fsWrite_ne (fs : QFS) (p q : Str) (b : List Nat) (h : q ≠ p) :
    aFind (fsWrite fs p b) q = aFind fs q :=
  aFind_aInsert_ne fs p q b h

theorem aFind_fsRemove_ne (fs : QFS) (p q : Str) (h : q ≠ p) :
    aFind (fsRemove fs p) q = aFind fs q := by
  induction fs with
  | nil => rfl
  | cons e rest ih =>
    unfold fsRemove at *
    rw [List.filter_cons]
    by_cases hep : e.1 = p
    · have hd : decide (e.1 ≠ p) = false := by simp [hep]
      rw [hd, if_neg (by decide), ih, aFind_cons,
        if_neg (by rw [hep]; exact Ne.symm h)]
    · have hd : decide (e.1 ≠ p) = true := by simp [hep]
      rw [hd, if_pos rfl, aFind_cons, aFind_cons, ih]

theorem ctrApply_length (ks : Nat → Nat) (i : Nat) (bs : List Nat) :
    (ctrApply ks i bs).length = bs.length := by
  induction bs generalizing i with
  | nil => rfl
  | cons b rest ih => simp [ctrApply, ih]

theorem ctrApply_ctrApply (ks : Nat → Nat) (i : Nat) (bs : List Nat) :
    ctrApply ks i (ctrApply ks i bs) = bs := by
  induction bs generalizing i with
  | nil => rfl
  | cons b rest ih =>
    simp only [ctrApply, List.cons.injEq]
    refine ⟨?_, ih (i + 1)⟩
    rw [Nat.xor_assoc, Nat.xor_self, Nat.xor_zero]

theorem take_artifact (ct tag : List Nat) (htag : tag.length = 32) :
    (ct ++ tag).take ((ct ++ tag).length - 32) = ct := by
  rw [List.length_append, htag]
  have h1 : ct.length + 32 - 32 = ct.length := by omega
  rw [h1, List.take_left]

theorem drop_artifact (ct tag : List Nat) (htag : tag.length = 32) :
    (ct ++ tag).drop ((ct ++ tag).length - 32) = tag := by
  rw [List.length_append, htag]
  have h1 : ct.length + 32 - 32 = ct.length := by omega
  rw [h1, List.drop_left]

/-- The quarantine artifact name always carries `'/' ∉`, is nonempty and
is not a dot component, so `Path::file_name` of the artifact path
recovers it. -/
theorem fileName_qpath (qdir ts fname : Str) (hts : '/' ∉ ts)
    (hfn : '/' ∉ fname) :
    fileName (qdir ++ '/' :: (ts ++ '_' :: fname)) =
      some (ts ++ '_' :: fname) := by
  have hq1 : '/' ∉ ts ++ '_' :: fname := by
    intro hmem
    rcases List.mem_append.mp hmem with hm | hm
    · exact hts hm
    · rcases List.mem_cons.mp hm with hm2 | hm2
      · exact absurd hm2 (by decide)
      · exact hfn hm2
  have hq2 : ts ++ '_' :: fname ≠ [] := by simp
  have hu : '_' ∈ ts ++ '_' :: fname :=
    List.mem_append_right ts (List.mem_cons_self '_' fname)
  have hq3 : ts ++ '_' :: fname ≠ ['.'] := by
    intro he
    rw [he] at hu
    exact absurd hu (by decide)
  have hq4 : ts ++ '_' :: fname ≠ ['.', '.'] := by
    intro he
    rw [he] at hu
    exact absurd hu (by decide)
  exact fileName_concat qdir _ hq1 hq2 hq3 hq4

/-- The quarantine destination never coincides with the source path: the
artifact's file name strictly extends the source's file name. -/
theorem qpath_ne_src (qdir ts fname src : Str) (hts : '/' ∉ ts)
    (hname : fileName src = some fname) :
    qdir ++ '/' :: (ts ++ '_' :: fname) ≠ src := by
  obtain ⟨hfn, _⟩ := fileName_no_slash src fname hname
  intro he
  have h2 := congrArg fileName he
  rw [fileName_qpath qdir ts fname hts hfn, hname] at h2
  have h3 : ts ++ '_' :: fname = fname := Option.some.inj h2
  have h4 := congrArg List.length h3
  simp only [List.length_append, List.length_cons] at h4
  omega

theorem startScan_cons (sigs : SigMap) (hashF : List Nat → Nat)
    (opts : ScanOptions) (e : WalkEntry) (es : List WalkEntry) (st : ScanState) :
    startScan sigs hashF opts (e :: es) st =
      startScan sigs hashF opts es (scanEntry sigs hashF opts st e) := rfl

theorem scanEntry_errors (sigs : SigMap) (hashF : List Nat → Nat)
    (opts : ScanOptions) (st : ScanState) (e : WalkEntry) :
    (scanEntry sigs hashF opts st e).stats.errors =
      st.stats.errors + (if isErrEntry e then 1 else 0) := by
  cases e with
  | err => rfl
  | ok path isFile meta content =>
    rw [show (if isErrEntry (WalkEntry.ok path isFile meta content) then 1 else 0)
        = 0 from rfl, Nat.add_zero]
    simp only [scanEntry]
    split
    · split
      · rfl
      · split
        · split <;> rfl
        · rfl
    · rfl

theorem startScan_errors (sigs : SigMap) (hashF : List Nat → Nat)
    (opts : ScanOptions) (es : List WalkEntry) : ∀ st : ScanState,
    (startScan sigs hashF opts es st).stats.errors =
      st.stats.errors + es.countP isErrEntry := by
  induction es with
  | nil => intro st; simp [startScan]
  | cons e rest ih =>
    intro st
    rw [startScan_cons, ih, scanEntry_errors, List.countP_cons]
    by_cases he : isErrEntry e = true <;> simp [he] <;> omega

theorem scanEntry_core (sigs : SigMap) (hashF : List Nat → Nat)
    (opts : ScanOptions) (st1 st2 : ScanState) (e : WalkEntry)
    (h : coreOf st1 = coreOf st2) :
    coreOf (scanEntry sigs hashF opts st1 e) =
      coreOf (scanEntry sigs hashF opts st2 e) := by
  simp only [coreOf, Prod.mk.injEq] at h
  obtain ⟨hres, hcache, hfiles, hbytes, hthreats⟩ := h
  cases e with
  | err => simp only [scanEntry, coreOf, hres, hcache, hfiles, hbytes, hthreats]
  | ok path isFile meta content =>
    simp only [scanEntry]
    by_cases hcond : (!shouldExclude opts path && isFile) = true
    · simp only [if_pos hcond]
      cases meta with
      | none => simp only [coreOf, hres, hcache, hfiles, hbytes, hthreats]
      | some len =>
        by_cases hlen : len ≤ opts.max_file_size
        · simp only [if_pos hlen, hcache]
          cases hscan : scanFileSync sigs hashF st2.cache path content with
          | mk o c1 =>
            cases o <;>
              simp only [coreOf, hres, hcache, hfiles, hbytes, hthreats]
        · simp only [if_neg hlen, coreOf, hres, hcache, hfiles, hbytes, hthreats]
    · simp only [if_neg hcond, coreOf, hres, hcache, hfiles, hbytes, hthreats]

theorem startScan_core (sigs : SigMap) (hashF : List Nat → Nat)
    (opts : ScanOptions) (es : List WalkEntry) : ∀ st1 st2 : ScanState,
    coreOf st1 = coreOf st2 →
    coreOf (startScan sigs hashF opts es st1) =
      coreOf (startScan sigs hashF opts es st2) := by
  induction es with
  | nil => intro st1 st2 h; exact h
  | cons e rest ih =>
    intro st1 st2 h
    rw [startScan_cons, startScan_cons]
    exact ih _ _ (scanEntry_core sigs hashF opts st1 st2 e h)

theorem startScan_filter_err (sigs : SigMap) (hashF : List Nat → Nat)
    (opts : ScanOptions) (es : List WalkEntry) : ∀ st : ScanState,
    coreOf (startScan sigs hashF opts es st) =
      coreOf (startScan sigs hashF opts (es.filter (fun e => !isErrEntry e)) st) := by
  induction es with
  | nil => intro st; rfl
  | cons e rest ih =>
    intro st
    cases e with
    | err =>
      have hfe : (WalkEntry.err :: rest).filter (fun e => !isErrEntry e) =
          rest.filter (fun e => !isErrEntry e) := by
        simp [List.filter_cons, isErrEntry]
      rw [hfe, startScan_cons]
      have hcore : coreOf (scanEntry sigs hashF opts st .err) = coreOf st := rfl
      exact (startScan_core sigs hashF opts rest _ _ hcore).trans (ih st)
    | ok path isFile meta content =>
      have hfe : (WalkEntry.ok path isFile meta content :: rest).filter
          (fun e => !isErrEntry e) =
          WalkEntry.ok path isFile meta content ::
            rest.filter (fun e => !isErrEntry e) := by
        simp [List.filter_cons, isErrEntry]
      rw [hfe, startScan_cons, startScan_cons]
      exact ih _

theorem quarantineFile_none_eq (ks : Nat → Nat)
    (macF : List Nat → List Nat → List Nat) (qm : QuarantineManager) (fs : QFS)
    (src fname : Str) (content : List Nat) (ts : Str) (pb : List Nat)
    (hk : qm.encryption_key = none) (hname : fileName src = some fname)
    (hread : aFind fs src = some content) :
    quarantineFile ks macF qm fs ts true pb src =
      (.ok (qm.quarantine_dir ++ '/' :: (ts ++ '_' :: fname)),
        fsRemove
          (fsWrite fs (qm.quarantine_dir ++ '/' :: (ts ++ '_' :: fname)) content)
          src) := by
  simp only [quarantineFile, hname, hk, hread, if_true]

theorem quarantineFile_some_eq (ks : Nat → Nat)
    (macF : List Nat → List Nat → List Nat) (qm : QuarantineManager) (fs : QFS)
    (src fname : Str) (content : List Nat) (ts : Str) (pb : List Nat)
    (key : List Nat) (hk : qm.encryption_key = some key)
    (hklen : key.length = 32) (hname : fileName src = some fname)
    (hread : aFind fs src = some content) :
    quarantineFile ks macF qm fs ts true pb src =
      (.ok (qm.quarantine_dir ++ '/' :: (ts ++ '_' :: fname)),
        fsRemove
          (fsWrite fs (qm.quarantine_dir ++ '/' :: (ts ++ '_' :: fname))
            (ctrApply ks 0 content ++ macF key (ctrApply ks 0 content)))
          src) := by
  simp only [quarantineFile, hname, hk, hread, encryptAes256Gcm, hklen,
    ne_eq, not_true_eq_false, if_false, if_true]

theorem restoreFile_none_eq (ks : Nat → Nat)
    (macF : List Nat → List Nat → List Nat) (qm : QuarantineManager) (fs : QFS)
    (cwd qpath qname x y : Str) (stored : List Nat)
    (hk : qm.encryption_key = none) (hfind : aFind fs qpath = some stored)
    (hfn : fileName qpath = some qname)
    (hsplit : splitn2 '_' qname = some (x, y)) :
    restoreFile ks macF qm fs cwd qpath =
      (.ok (cwd ++ '/' :: y), fsWrite fs (cwd ++ '/' :: y) stored) := by
  simp only [restoreFile, hfind, hfn, hsplit, hk]

theorem restoreFile_some_eq (ks : Nat → Nat)
    (macF : List Nat → List Nat → List Nat) (qm : QuarantineManager) (fs : QFS)
    (cwd qpath qname x y : Str) (ct tag : List Nat) (key : List Nat)
    (hk : qm.encryption_key = some key) (hklen : key.length = 32)
    (hfind : aFind fs qpath = some (ct ++ tag)) (htag : tag.length = 32)
    (hver : macF key ct = tag) (hfn : fileName qpath = some qname)
    (hsplit : splitn2 '_' qname = some (x, y)) :
    restoreFile ks macF qm fs cwd qpath =
      (.ok (cwd ++ '/' :: y), fsWrite fs (cwd ++ '/' :: y) (ctrApply ks 0 ct)) := by
  have hlen : ¬((ct ++ tag).length < 32) := by
    rw [List.length_append, htag]; omega
  simp only [restoreFile, hfind, hfn, hsplit, hk, if_neg hlen,
    take_artifact ct tag htag, drop_artifact ct tag htag, if_pos hver, hklen,
    ne_eq, not_true_eq_false, if_false]

/-- C6 — quarantine round trip: for a readable source file with a proper
file name, quarantining (write succeeding) and then restoring the
artifact produces a file whose content is byte-identical to the original,
whatever encryption configuration the manager carries (no key, or any
32-byte key with its keystream `ks` and 32-byte keyed tag `macF`). -/
theorem c6_quarantine_restore_round_trip (ks : Nat → Nat)
    (macF : List Nat → List Nat → List Nat) (qm : QuarantineManager) (fs : QFS)
    (src : Str) (content : List Nat) (ts cwd fname : Str)
    (hname : fileName src = some fname)
    (hread : aFind fs src = some content)
    (hts : '/' ∉ ts)
    (hkey : ∀ k, qm.encryption_key = some k →
      k.length = 32 ∧ ∀ msg : List Nat, (macF k msg).length = 32) :
    ∃ qpath fs1 rpath fs2,
      quarantineFile ks macF qm fs ts true [] src = (.ok qpath, fs1) ∧
      restoreFile ks macF qm fs1 cwd qpath = (.ok rpath, fs2) ∧
      aFind fs2 rpath = some content := by
  obtain ⟨hfn, hfne⟩ := fileName_no_slash src fname hname
  have hqfn : fileName (qm.quarantine_dir ++ '/' :: (ts ++ '_' :: fname)) =
      some (ts ++ '_' :: fname) := fileName_qpath _ _ _ hts hfn
  have hne : qm.quarantine_dir ++ '/' :: (ts ++ '_' :: fname) ≠ src :=
    qpath_ne_src _ _ _ _ hts hname
  obtain ⟨⟨x, y⟩, hsplit⟩ := splitn2_concat ts fname
  cases hk : qm.encryption_key with
  | none =>
    refine ⟨qm.quarantine_dir ++ '/' :: (ts ++ '_' :: fname),
      fsRemove (fsWrite fs (qm.quarantine_dir ++ '/' :: (ts ++ '_' :: fname))
        content) src,
      cwd ++ '/' :: y,
      fsWrite (fsRemove (fsWrite fs
        (qm.quarantine_dir ++ '/' :: (ts ++ '_' :: fname)) content) src)
        (cwd ++ '/' :: y) content,
      quarantineFile_none_eq ks macF qm fs src fname content ts [] hk hname hread,
      ?_, ?_⟩
    · refine restoreFile_none_eq ks macF qm _ cwd _ _ x y content hk ?_ hqfn hsplit
      rw [aFind_fsRemove_ne _ _ _ hne, aFind_fsWrite_self]
    · exact aFind_fsWrite_self _ _ _
  | some key =>
    obtain ⟨hklen, hmac32⟩ := hkey key hk
    refine ⟨qm.quarantine_dir ++ '/' :: (ts ++ '_' :: fname),
      fsRemove (fsWrite fs (qm.quarantine_dir ++ '/' :: (ts ++ '_' :: fname))
        (ctrApply ks 0 content ++ macF key (ctrApply ks 0 content))) src,
      cwd ++ '/' :: y,
      fsWrite (fsRemove (fsWrite fs
          (qm.quarantine_dir ++ '/' :: (ts ++ '_' :: fname))
          (ctrApply ks 0 content ++ macF key (ctrApply ks 0 content))) src)
        (cwd ++ '/' :: y) (ctrApply ks 0 (ctrApply ks 0 content)),
      quarantineFile_some_eq ks macF qm fs src fname content ts [] key hk hklen
        hname hread,
      ?_, ?_⟩
    · refine restoreFile_some_eq ks macF qm _ cwd _ _ x y
        (ctrApply ks 0 content) (macF key (ctrApply ks 0 content)) key hk hklen
        ?_ (hmac32 _) rfl hqfn hsplit
      rw [aFind_fsRemove_ne _ _ _ hne, aFind_fsWrite_self]
    · rw [aFind_fsWrite_self, ctrApply_ctrApply]

/-- C6 witness: round-tripping the file `"d/f.txt"` with content
`[1, 2, 3]`, both with a 32-byte key and with no key configured. -/
theorem c6_quarantine_restore_round_trip_witness :
    (∃ qpath fs1 rpath fs2,
      quarantineFile (fun _ => 7) (fun _ _ => List.replicate 32 0)
        ⟨['q'], some (List.replicate 32 5)⟩
        [(['d', '/', 'f', '.', 't', 'x', 't'], [1, 2, 3])]
        ['2', '0', '_', '1', '2'] true [] ['d', '/', 'f', '.', 't', 'x', 't'] =
        (.ok qpath, fs1) ∧
      restoreFile (fun _ => 7) (fun _ _ => List.replicate 32 0)
        ⟨['q'], some (List.replicate 32 5)⟩ fs1 ['w'] qpath = (.ok rpath, fs2) ∧
      aFind fs2 rpath = some [1, 2, 3]) ∧
    (∃ qpath fs1 rpath fs2,
      quarantineFile (fun _ => 7) (fun _ _ => List.replicate 32 0)
        ⟨['q'], none⟩ [(['d', '/', 'f', '.', 't', 'x', 't'], [1, 2, 3])]
        ['2', '0', '_', '1', '2'] true [] ['d', '/', 'f', '.', 't', 'x', 't'] =
        (.ok qpath, fs1) ∧
      restoreFile (fun _ => 7) (fun _ _ => List.replicate 32 0)
        ⟨['q'], none⟩ fs1 ['w'] qpath = (.ok rpath, fs2) ∧
      aFind fs2 rpath = some [1, 2, 3]) := by
  constructor
  · exact c6_quarantine_restore_round_trip (fun _ => 7)
      (fun _ _ => List.replicate 32 0) ⟨['q'], some (List.replicate 32 5)⟩
      [(['d', '/', 'f', '.', 't', 'x', 't'], [1, 2, 3])]
      ['d', '/', 'f', '.', 't', 'x', 't'] [1, 2, 3] ['2', '0', '_', '1', '2']
      ['w'] ['f', '.', 't', 'x', 't'] (by decide) (by decide) (by decide)
      (fun k hkk => ⟨by
        rcases Option.some.inj hkk with rfl
        decide, fun msg => by simp⟩)
  · exact c6_quarantine_restore_round_trip (fun _ => 7)
      (fun _ _ => List.replicate 32 0) ⟨['q'], none⟩
      [(['d', '/', 'f', '.', 't', 'x', 't'], [1, 2, 3])]
      ['d', '/', 'f', '.', 't', 'x', 't'] [1, 2, 3] ['2', '0', '_', '1', '2']
      ['w'] ['f', '.', 't', 'x', 't'] (by decide) (by decide) (by decide)
      (fun k hkk => Option.noConfusion hkk)

/-- C5 — quarantine is copy-before-delete: whenever the operation returns
an error (unreadable source, bad key, failed destination write — `wok`
injects the write outcome, `pb` whatever bytes a failed write left at the
destination), the source file's entry is untouched; and a success is
possible only when the destination write succeeded, in which case the
final filesystem is literally "write the artifact, then remove the
original", with the full artifact present at the destination. -/
theorem c5_quarantine_copy_before_delete (ks : Nat → Nat)
    (macF : List Nat → List Nat → List Nat) (qm : QuarantineManager) (fs : QFS)
    (ts : Str) (wok : Bool) (pb : List Nat) (src : Str) (hts : '/' ∉ ts) :
    (∀ e fs1, quarantineFile ks macF qm fs ts wok pb src = (.error e, fs1) →
      aFind fs1 src = aFind fs src) ∧
    (∀ qp fs1, quarantineFile ks macF qm fs ts wok pb src = (.ok qp, fs1) →
      wok = true ∧ ∃ art, fs1 = fsRemove (fsWrite fs qp art) src ∧
        aFind fs1 qp = some art) := by
  cases hname : fileName src with
  | none =>
    have he : quarantineFile ks macF qm fs ts wok pb src =
        (.error .invalidName, fs) := by
      simp only [quarantineFile, hname]
    constructor
    · intro e fs1 h
      rw [he] at h
      injection h with h1 h2
      rw [← h2]
    · intro qp fs1 h
      rw [he] at h
      injection h with h1 h2
      exact absurd h1 (by simp)
  | some fname =>
    have hne : qm.quarantine_dir ++ '/' :: (ts ++ '_' :: fname) ≠ src :=
      qpath_ne_src _ _ _ _ hts hname
    have hok : ∀ art : List Nat,
        aFind (fsRemove (fsWrite fs
            (qm.quarantine_dir ++ '/' :: (ts ++ '_' :: fname)) art) src)
          (qm.quarantine_dir ++ '/' :: (ts ++ '_' :: fname)) = some art := by
      intro art
      rw [aFind_fsRemove_ne _ _ _ hne, aFind_fsWrite_self]
    cases hread : aFind fs src with
    | none =>
      have he : quarantineFile ks macF qm fs ts wok pb src =
          (.error .ioError, fs) := by
        cases hk : qm.encryption_key <;>
          simp only [quarantineFile, hname, hk, hread]
      constructor
      · intro e fs1 h
        rw [he] at h
        injection h with h1 h2
        rw [← h2]
        exact hread
      · intro qp fs1 h
        rw [he] at h
        injection h with h1 h2
        exact absurd h1 (by simp)
    | some content =>
      cases hk : qm.encryption_key with
      | none =>
        cases wok with
        | false =>
          have he : quarantineFile ks macF qm fs ts false pb src =
              (.error .ioError,
                fsWrite fs (qm.quarantine_dir ++ '/' :: (ts ++ '_' :: fname)) pb) := by
            simp only [quarantineFile, hname, hk, hread, Bool.false_eq_true,
              if_false]
          constructor
          · intro e fs1 h
            rw [he] at h
            injection h with h1 h2
            rw [← h2, aFind_fsWrite_ne _ _ _ _ (Ne.symm hne)]
            exact hread
          · intro qp fs1 h
            rw [he] at h
            injection h with h1 h2
            exact absurd h1 (by simp)
        | true =>
          have he := quarantineFile_none_eq ks macF qm fs src fname content ts
            pb hk hname hread
          constructor
          · intro e fs1 h
            rw [he] at h
            injection h with h1 h2
            exact absurd h1 (by simp)
          · intro qp fs1 h
            rw [he] at h
            injection h with h1 h2
            have hqp : qm.quarantine_dir ++ '/' :: (ts ++ '_' :: fname) = qp :=
              Except.ok.inj h1
            subst hqp
            exact ⟨rfl, content, h2.symm, h2 ▸ hok content⟩
      | some key =>
        by_cases hkl : key.length = 32
        · cases wok with
          | false =>
            have he : quarantineFile ks macF qm fs ts false pb src =
                (.error .ioError,
                  fsWrite fs (qm.quarantine_dir ++ '/' :: (ts ++ '_' :: fname)) pb) := by
              simp only [quarantineFile, hname, hk, hread, encryptAes256Gcm,
                hkl, ne_eq, not_true_eq_false, if_false, Bool.false_eq_true]
            constructor
            · intro e fs1 h
              rw [he] at h
              injection h with h1 h2
              rw [← h2, aFind_fsWrite_ne _ _ _ _ (Ne.symm hne)]
              exact hread
            · intro qp fs1 h
              rw [he] at h
              injection h with h1 h2
              exact absurd h1 (by simp)
          | true =>
            have he := quarantineFile_some_eq ks macF qm fs src fname content ts
              pb key hk hkl hname hread
            constructor
            · intro e fs1 h
              rw [he] at h
              injection h with h1 h2
              exact absurd h1 (by simp)
            · intro qp fs1 h
              rw [he] at h
              injection h with h1 h2
              have hqp : qm.quarantine_dir ++ '/' :: (ts ++ '_' :: fname) = qp :=
                Except.ok.inj h1
              subst hqp
              exact ⟨rfl, _, h2.symm, h2 ▸ hok _⟩
        · have he : quarantineFile ks macF qm fs ts wok pb src =
              (.error .cryptoError, fs) := by
            simp only [quarantineFile, hname, hk, hread, encryptAes256Gcm,
              hkl, ne_eq, not_false_eq_true, if_true]
          constructor
          · intro e fs1 h
            rw [he] at h
            injection h with h1 h2
            rw [← h2]
            exact hread
          · intro qp fs1 h
            rw [he] at h
            injection h with h1 h2
            exact absurd h1 (by simp)

/-- C5 witness: a quarantine of `"d/f.txt"` without a key and with the
destination write succeeding. -/
theorem c5_quarantine_copy_before_delete_witness :
    (∀ e fs1, quarantineFile (fun _ => 7) (fun _ _ => List.replicate 32 0)
        ⟨['q'], none⟩ [(['d', '/', 'f', '.', 't', 'x', 't'], [1, 2, 3])]
        ['2', '0', '_', '1', '2'] true [9] ['d', '/', 'f', '.', 't', 'x', 't'] =
        (.error e, fs1) →
      aFind fs1 ['d', '/', 'f', '.', 't', 'x', 't'] =
        aFind [(['d', '/', 'f', '.', 't', 'x', 't'], [1, 2, 3])]
          ['d', '/', 'f', '.', 't', 'x', 't']) ∧
    (∀ qp fs1, quarantineFile (fun _ => 7) (fun _ _ => List.replicate 32 0)
        ⟨['q'], none⟩ [(['d', '/', 'f', '.', 't', 'x', 't'], [1, 2, 3])]
        ['2', '0', '_', '1', '2'] true [9] ['d', '/', 'f', '.', 't', 'x', 't'] =
        (.ok qp, fs1) →
      true = true ∧ ∃ art, fs1 = fsRemove
          (fsWrite [(['d', '/', 'f', '.', 't', 'x', 't'], [1, 2, 3])] qp art)
          ['d', '/', 'f', '.', 't', 'x', 't'] ∧
        aFind fs1 qp = some art) :=
  c5_quarantine_copy_before_delete (fun _ => 7) (fun _ _ => List.replicate 32 0)
    ⟨['q'], none⟩ [(['d', '/', 'f', '.', 't', 'x', 't'], [1, 2, 3])]
    ['2', '0', '_', '1', '2'] true [9] ['d', '/', 'f', '.', 't', 'x', 't']
    (by decide)

/-- C9 counterexample — a file whose metadata succeeds (so it passes the
size gate and is counted as scanned) but whose read fails is silently
skipped: the scan's error counter stays 0, although the claim requires
every file-read error to increment it. -/
theorem c9_read_error_not_counted :
    (startScan [] (fun _ => 0) exScanOptions
        [.ok ['f'] true (some 3) none] initState).stats.errors = 0 ∧
    (startScan [] (fun _ => 0) exScanOptions
        [.ok ['f'] true (some 3) none] initState).stats.files_scanned = 1 ∧
    (startScan [] (fun _ => 0) exScanOptions
        [.ok ['f'] true (some 3) none] initState).results = [] := by
  refine ⟨?_, ?_, ?_⟩ <;> decide

/-- C9 amended — traversal errors are counted and never abort: the scan
of any entry stream completes with the error counter increased by exactly
the number of traversal errors, and the results are the same as if the
error entries were not in the stream at all (so every result found is
returned). File-read errors, however, are silently skipped: they leave
every counter unchanged (they are `.ok` entries, which contribute nothing
to the error count). -/
theorem c9_errors_counted_scan_continues (sigs : SigMap)
    (hashF : List Nat → Nat) (opts : ScanOptions) (es : List WalkEntry)
    (st : ScanState) :
    (startScan sigs hashF opts es st).stats.errors =
      st.stats.errors + es.countP isErrEntry ∧
    (startScan sigs hashF opts es st).results =
      (startScan sigs hashF opts (es.filter (fun e => !isErrEntry e)) st).results := by
  refine ⟨startScan_errors sigs hashF opts es st, ?_⟩
  have h := startScan_filter_err sigs hashF opts es st
  exact congrArg (fun t => t.1) h

/-- C8 — idempotent upsert: loading signature `a` and then a signature `b`
with the same id leaves the id map with `b` under that id, exactly one
binding for the id, and no duplicate keys anywhere (`HashMap::insert`
replaces in place). -/
theorem c8_idempotent_upsert (m : SigMap) (tm : TypeMap) (a b : Signature)
    (hid : a.id = b.id) (hnd : nodupKeys m) :
    aFind (updateSignatures (updateSignatures m tm [a]).1
        (updateSignatures m tm [a]).2 [b]).1 b.id = some b ∧
    keyCount (updateSignatures (updateSignatures m tm [a]).1
        (updateSignatures m tm [a]).2 [b]).1 b.id = 1 ∧
    nodupKeys (updateSignatures (updateSignatures m tm [a]).1
        (updateSignatures m tm [a]).2 [b]).1 := by
  have h1 : (updateSignatures m tm [a]).1 = aInsert m a.id a := rfl
  have h2 : (updateSignatures (updateSignatures m tm [a]).1
      (updateSignatures m tm [a]).2 [b]).1 =
      aInsert (aInsert m a.id a) b.id b := by rw [h1]; rfl
  rw [h2]
  have hnd1 : nodupKeys (aInsert m a.id a) := nodupKeys_aInsert m a.id a hnd
  exact ⟨aFind_aInsert_self _ _ _, keyCount_aInsert_self _ _ _ hnd1,
    nodupKeys_aInsert _ _ _ hnd1⟩

/-- C8 witness: loading id "S1" with pattern `[1]` and then with pattern
`[2]` into the empty store. -/
theorem c8_idempotent_upsert_witness :
    aFind (updateSignatures (updateSignatures [] [] [exSigA]).1
        (updateSignatures [] [] [exSigA]).2 [exSigB]).1 exSigB.id = some exSigB ∧
    keyCount (updateSignatures (updateSignatures [] [] [exSigA]).1
        (updateSignatures [] [] [exSigA]).2 [exSigB]).1 exSigB.id = 1 ∧
    nodupKeys (updateSignatures (updateSignatures [] [] [exSigA]).1
        (updateSignatures [] [] [exSigA]).2 [exSigB]).1 :=
  c8_idempotent_upsert [] [] exSigA exSigB rfl (by simp [nodupKeys])

/-- C10 — threat-type index accumulation: loading the same signature `k`
times (`k ≥ 1`) leaves exactly one binding for its id in the id map while
the secondary index lists the id `k` times; moreover no load or update
ever removes an index entry — the old index list of every threat type is
an initial segment of the new one. -/
theorem c10_index_accumulation (sig : Signature) (k : Nat) (hk : 0 < k) :
    keyCount (updateSignatures [] [] (List.replicate k sig)).1 sig.id = 1 ∧
    (typeList (updateSignatures [] [] (List.replicate k sig)).2
        sig.threat_type).count sig.id = k ∧
    (∀ (m : SigMap) (tm : TypeMap) (batch : List Signature) (t : Str),
      ∃ s, typeList (updateSignatures m tm batch).2 t = typeList tm t ++ s) := by
  refine ⟨?_, ?_, fun m tm batch t => updateSignatures_index_append_only m tm batch t⟩
  · rw [updateSignatures_replicate_fst, if_neg (Nat.pos_iff_ne_zero.mp hk)]
    simp [keyCount, List.filter_cons]
  · rw [updateSignatures_replicate_snd]
    simp

/-- C10 witness: loading the signature three times. -/
theorem c10_index_accumulation_witness :
    keyCount (updateSignatures [] [] (List.replicate 3 exSigA)).1 exSigA.id = 1 ∧
    (typeList (updateSignatures [] [] (List.replicate 3 exSigA)).2
        exSigA.threat_type).count exSigA.id = 3 ∧
    (∀ (m : SigMap) (tm : TypeMap) (batch : List Signature) (t : Str),
      ∃ s, typeList (updateSignatures m tm batch).2 t = typeList tm t ++ s) :=
  c10_index_accumulation exSigA 3 (by decide)

/-- C2 amended — the wildcard rules hold as stated but only anchored at
the start of the data: a `?` (byte 63) pattern head consumes exactly one
arbitrary data byte, a `*` (byte 42) pattern head reached with data
remaining makes the whole match succeed immediately, and in particular
`b"AB*XY"` matches data beginning with `AB` such as `b"ABQQQ"`, while it
does not match `b"ZZABQQQ"` because there is no sliding over the data. -/
theorem c2_wildcard_anchored_semantics :
    (∀ (b : Nat) (d p : List Nat), matchExtendedPattern (b :: d) (42 :: p) = true) ∧
    (∀ (b : Nat) (d p : List Nat),
      matchExtendedPattern (b :: d) (63 :: p) = matchExtendedPattern d p) ∧
    matchPattern [65, 66, 81, 81, 81] [65, 66, 42, 88, 89]
      PatternType.extendedByteSequence = some true ∧
    matchPattern [90, 90, 65, 66, 81, 81, 81] [65, 66, 42, 88, 89]
      PatternType.extendedByteSequence = some false := by
  refine ⟨fun b d p => matchExtendedPattern_star b d p,
          fun b d p => matchExtendedPattern_query b d p, ?_, ?_⟩
  · simp [matchPattern, matchExtendedPattern, litRun, leadsList]
  · simp [matchPattern, matchExtendedPattern, litRun, leadsList]

end VScan
